import Mathlib

/-!
Verification development for the redlimit rate-limiting service.

The definitions below are a shallow embedding of the repository's code:

* `src/redlimit.rs` — the rule resolver (`RedRules`, `limit_args`,
  `dyn_update`, `LimitArgs::is_valid`, the `limiting` wrapper);
* `src/redlimit_lua.rs` — the backend stored procedures (`limiting`,
  `redlist_add`, `redrules_add`), modelled as pure state transformers over
  an explicit backend-state type, with the script's single atomic execution
  taking place at one instant `ts` (Redis runs scripts single-threaded);
* `src/api.rs` — the `post_limiting` response assembly, with the 100 ms
  deadline race abstracted into a boolean oracle (real time is not part of
  the embedding).

Rust `HashMap`s are embedded as functions `String → Option _`; Redis sorted
sets and hashes are embedded as association lists.  Machine integers in the
source are `u64`; no arithmetic in the embedded fragments can overflow
`u64` in any reachable scenario, so they are modelled as `Nat` (PTTL, which
is signed in Redis, is modelled as `Int`).
-/

/-! ## Data model: static rules and dynamic state (src/redlimit.rs) -/

/-- A limit recipe (`conf::Rule`): `limit = [maxCount, periodMs, maxBurst,
burstPeriodMs]`, a default per-call cost, and per-path cost overrides. -/
structure Rule where
  limit : List Nat
  quantity : Nat
  path : String → Option Nat

/-- The dynamic state guarded by the resolver's RwLock (`DynRedRules`):
`redrules : "scope:path" ↦ (quantity, expiry-ms)`, `redlist : id ↦
expiry-ms`, and the monotone scan cursor. -/
structure DynRedRules where
  redrules : String → Option (Nat × Nat)
  redlist : String → Option Nat
  redlist_cursor : Nat

/-- The static part of `RedRules`: the floor limit quadruple (scope `-`),
the default rule (scope `*`) and the per-scope rules. -/
structure RedRules where
  floor : List Nat
  defaut : Rule
  rules : String → Option Rule

/-- `NS::redlist_key`: the redlist is keyed by the raw id. -/
def NS.redlist_key (id : String) : String := id

/-- `NS::redrules_key`: dynamic redrules are keyed by `"{scope}:{path}"`. -/
def NS.redrules_key (scope path : String) : String := scope ++ ":" ++ path

/-- The 5-tuple passed to the backend script
(`LimitArgs(quantity, maxCount, periodMs, maxBurst, burstPeriodMs)`). -/
structure LimitArgs where
  quantity : Nat
  maxCount : Nat
  periodMs : Nat
  maxBurst : Nat
  burstPeriodMs : Nat
deriving DecidableEq, Repr

/-- `LimitArgs::new`: fill the quadruple from a `limit` vector of length
2, 3 or 4; any other length leaves the four limit fields zero. -/
def LimitArgs.new (quantity : Nat) (others : List Nat) : LimitArgs :=
  match others with
  | [a, b] => ⟨quantity, a, b, 0, 0⟩
  | [a, b, c] => ⟨quantity, a, b, c, 0⟩
  | [a, b, c, d] => ⟨quantity, a, b, c, d⟩
  | _ => ⟨quantity, 0, 0, 0, 0⟩

/-- `LimitArgs::is_valid`. -/
def LimitArgs.is_valid (a : LimitArgs) : Prop :=
  0 < a.quantity ∧ a.quantity ≤ a.maxCount ∧
  0 < a.periodMs ∧ a.periodMs ≤ 60 * 1000 ∧
  (a.maxBurst = 0 ∨ a.quantity ≤ a.maxBurst) ∧
  (a.burstPeriodMs = 0 ∨ a.burstPeriodMs ≤ a.periodMs)

instance (a : LimitArgs) : Decidable a.is_valid := by
  unfold LimitArgs.is_valid; infer_instance

/-! ## The rule resolver (src/redlimit.rs, `impl RedRules`) -/

/-- Reader `RedRules::redlist(now)`: the snapshot keeps entries with
`expiry ≥ now`. -/
def redlist_read (dr : DynRedRules) (now : Nat) (k : String) : Option Nat :=
  match dr.redlist k with
  | some v => if now ≤ v then some v else none
  | none => none

/-- Reader `RedRules::redrules(now)`: the snapshot keeps entries with
`expiry ≥ now`. -/
def redrules_read (dr : DynRedRules) (now : Nat) (k : String) :
    Option (Nat × Nat) :=
  match dr.redrules k with
  | some v => if now ≤ v.2 then some v else none
  | none => none

/-- The redlist test inside `RedRules::limit_args`: the id is demoted when
it has an entry with `ttl ≥ now`. -/
def redlistHit (dr : DynRedRules) (now : Nat) (id : String) : Bool :=
  match dr.redlist (NS.redlist_key id) with
  | some ttl => decide (now ≤ ttl)
  | none => false

/-- `RedRules::limit_args(now, scope, path, id)`. -/
def limit_args (rr : RedRules) (dr : DynRedRules) (now : Nat)
    (scope path id : String) : LimitArgs :=
  if id = "" then LimitArgs.new 0 []
  else if redlistHit dr now id then LimitArgs.new 1 rr.floor
  else
    let rule := (rr.rules scope).getD rr.defaut
    match dr.redrules (NS.redrules_key scope path) with
    | some qt =>
      if now ≤ qt.2 then LimitArgs.new qt.1 rule.limit
      else
        let q0 := (rule.path path).getD rule.quantity
        LimitArgs.new (if 0 < q0 then q0 else 1) rule.limit
    | none =>
      let q0 := (rule.path path).getD rule.quantity
      LimitArgs.new (if 0 < q0 then q0 else 1) rule.limit

/-- The `retain` pass of `dyn_update` on the redlist: keep entries with
`expiry > now`. -/
def dyn_retainL (dr : DynRedRules) (now : Nat) (k : String) : Option Nat :=
  match dr.redlist k with
  | some v => if now < v then some v else none
  | none => none

/-- The `retain` pass of `dyn_update` on the redrules: keep entries with
`expiry > now`. -/
def dyn_retainR (dr : DynRedRules) (now : Nat) (k : String) :
    Option (Nat × Nat) :=
  match dr.redrules k with
  | some v => if now < v.2 then some v else none
  | none => none

/-- `RedRules::dyn_update(now, redlist_cursor, redlist, redrules)`:
advance the cursor monotonically, drop stale entries, insert the delta
entries that are not yet stale. -/
def dyn_update (dr : DynRedRules) (now redlist_cursor : Nat)
    (redlistD : String → Option Nat)
    (redrulesD : String → Option (Nat × Nat)) : DynRedRules :=
  { redlist_cursor :=
      if dr.redlist_cursor < redlist_cursor then redlist_cursor
      else dr.redlist_cursor,
    redlist := fun k =>
      match redlistD k with
      | some v => if now < v then some v else dyn_retainL dr now k
      | none => dyn_retainL dr now k,
    redrules := fun k =>
      match redrulesD k with
      | some v => if now < v.2 then some v else dyn_retainR dr now k
      | none => dyn_retainR dr now k }

/-! ## The `limiting` wrapper (src/redlimit.rs, `pub async fn limiting`) -/

/-- What the wrapper does with a request: either bypass the backend and
answer immediately, or invoke the stored procedure with the given
positional arguments. -/
inductive LimitingAction where
  | bypass : Nat × Nat → LimitingAction
  | callScript : String → List Nat → LimitingAction
deriving DecidableEq

/-- `limiting(pool, limiting_key, args)` up to the backend boundary:
invalid args short-circuit to `LimitResult(0, 0)`; otherwise the FCALL
arguments are assembled, omitting `maxBurst`/`burstPeriodMs` when zero. -/
def limiting (limiting_key : String) (args : LimitArgs) : LimitingAction :=
  if ¬ args.is_valid then .bypass (0, 0)
  else
    let cmd := [args.quantity, args.maxCount, args.periodMs]
    let cmd := if 0 < args.maxBurst then cmd ++ [args.maxBurst] else cmd
    let cmd := if 0 < args.burstPeriodMs then cmd ++ [args.burstPeriodMs] else cmd
    .callScript limiting_key cmd

/-! ## Sanity checks against the repository's own unit expectations -/

theorem limitArgs_new_len1 : LimitArgs.new 2 [100] = ⟨2, 0, 0, 0, 0⟩ := rfl

theorem limitArgs_new_len4 :
    LimitArgs.new 1 [100, 10000, 50, 2000] = ⟨1, 100, 10000, 50, 2000⟩ := rfl

theorem limitArgs_new_len5 :
    LimitArgs.new 1 [100, 10000, 50, 2000, 1] = ⟨1, 0, 0, 0, 0⟩ := rfl

/-! ## Claims about the resolver and the wrapper -/

/-- C4: whenever `id` is non-empty and the dynamic redlist holds an entry
for `id` with `expiry ≥ now`, `limit_args` returns quantity 1 together
with the floor rule's limit quadruple, regardless of any dynamic redrules
override or static per-path quantity for `(scope, path)`. -/
theorem claim4_redlist_precedence (rr : RedRules) (dr : DynRedRules)
    (now : Nat) (scope path id : String) (ttl a b c d : Nat)
    (hid : id ≠ "") (hl : dr.redlist (NS.redlist_key id) = some ttl)
    (hnow : now ≤ ttl) (hfloor : rr.floor = [a, b, c, d]) :
    limit_args rr dr now scope path id = ⟨1, a, b, c, d⟩ := by
  have hhit : redlistHit dr now id = true := by
    unfold redlistHit
    rw [hl]
    exact decide_eq_true hnow
  unfold limit_args
  rw [if_neg hid, if_pos hhit, hfloor]
  rfl

theorem claim4_redlist_precedence_witness :
    limit_args
      ⟨[3, 10000, 1, 1000], ⟨[10, 10000, 3, 1000], 1, fun _ => none⟩,
        fun _ => none⟩
      ⟨fun k => if k = "core:GET /x" then some (5, 99) else none,
        fun k => if k = "u1" then some 50 else none, 0⟩
      50 "core" "GET /x" "u1" = ⟨1, 3, 10000, 1, 1000⟩ :=
  claim4_redlist_precedence _ _ 50 "core" "GET /x" "u1" 50 3 10000 1 1000
    (by decide) (by decide) (by decide) rfl

/-- C5: any `LimitArgs` violating one of the documented validity
conditions (`quantity ≤ maxCount`, `0 < periodMs ≤ 60000`,
`maxBurst = 0 ∨ quantity ≤ maxBurst`, `burstPeriodMs ≤ periodMs`) makes
`limiting` answer `(0, 0)` without invoking the backend script. -/
theorem claim5_invalid_args_bypass (key : String) (a : LimitArgs)
    (h : ¬ (a.quantity ≤ a.maxCount ∧ 0 < a.periodMs ∧
            a.periodMs ≤ 60000 ∧
            (a.maxBurst = 0 ∨ a.quantity ≤ a.maxBurst) ∧
            a.burstPeriodMs ≤ a.periodMs)) :
    limiting key a = .bypass (0, 0) := by
  have hnv : ¬ a.is_valid := by
    intro hv
    obtain ⟨_, h1, h2, h3, h4, h5⟩ := hv
    refine h ⟨h1, h2, by omega, h4, ?_⟩
    rcases h5 with h5 | h5
    · omega
    · exact h5
  unfold limiting
  rw [if_pos hnv]

theorem claim5_invalid_args_bypass_witness :
    limiting "ns:core:u1" ⟨2, 1, 1000, 0, 0⟩ = .bypass (0, 0) :=
  claim5_invalid_args_bypass "ns:core:u1" ⟨2, 1, 1000, 0, 0⟩ (by decide)

/-- C10: a dynamic redrules entry with quantity 0 that is not expired is
returned by `limit_args` unclamped (so the resulting `LimitArgs` fails
validation and `limiting` bypasses the backend with `(0, 0)`), whereas the
static per-path/default quantity is clamped from 0 up to 1. -/
theorem claim10_zero_quantity_override :
    (∀ (key : String) (rr : RedRules) (dr : DynRedRules) (now : Nat)
        (scope path id : String) (ttl : Nat),
      id ≠ "" →
      (∀ t, dr.redlist (NS.redlist_key id) = some t → t < now) →
      dr.redrules (NS.redrules_key scope path) = some (0, ttl) →
      now ≤ ttl →
      (limit_args rr dr now scope path id).quantity = 0 ∧
      limiting key (limit_args rr dr now scope path id) = .bypass (0, 0)) ∧
    (∀ (rr : RedRules) (dr : DynRedRules) (now : Nat)
        (scope path id : String),
      id ≠ "" →
      (∀ t, dr.redlist (NS.redlist_key id) = some t → t < now) →
      dr.redrules (NS.redrules_key scope path) = none →
      0 < (limit_args rr dr now scope path id).quantity) := by
  have hmiss : ∀ (dr : DynRedRules) (now : Nat) (id : String),
      (∀ t, dr.redlist (NS.redlist_key id) = some t → t < now) →
      redlistHit dr now id = false := by
    intro dr now id h
    unfold redlistHit
    cases hl : dr.redlist (NS.redlist_key id) with
    | none => rfl
    | some t =>
      have := h t hl
      simp only [decide_eq_false_iff_not]
      omega
  have hqnew : ∀ (q : Nat) (l : List Nat), (LimitArgs.new q l).quantity = q := by
    intro q l
    unfold LimitArgs.new
    split <;> rfl
  constructor
  · intro key rr dr now scope path id ttl hid hnl hrr hnow
    have hargs : limit_args rr dr now scope path id =
        LimitArgs.new 0 ((rr.rules scope).getD rr.defaut).limit := by
      unfold limit_args
      rw [if_neg hid, if_neg (by rw [hmiss dr now id hnl]; exact fun h => by cases h)]
      simp only [hrr]
      rw [if_pos hnow]
    rw [hargs]
    refine ⟨hqnew 0 _, ?_⟩
    have hnv : ¬ (LimitArgs.new 0 ((rr.rules scope).getD rr.defaut).limit).is_valid := by
      intro hv
      have h0 := hv.1
      rw [hqnew] at h0
      omega
    unfold limiting
    rw [if_pos hnv]
  · intro rr dr now scope path id hid hnl hrr
    unfold limit_args
    rw [if_neg hid, if_neg (by rw [hmiss dr now id hnl]; exact fun h => by cases h)]
    simp only [hrr]
    rw [hqnew]
    split <;> omega

theorem claim10_zero_quantity_override_witness :
    (limit_args
       ⟨[3, 10000, 1, 1000], ⟨[10, 10000, 3, 1000], 1, fun _ => none⟩,
         fun _ => none⟩
       ⟨fun k => if k = "core:GET /x" then some (0, 99) else none,
         fun _ => none, 0⟩
       50 "core" "GET /x" "u1").quantity = 0 ∧
    limiting "ns:core:u1"
      (limit_args
        ⟨[3, 10000, 1, 1000], ⟨[10, 10000, 3, 1000], 1, fun _ => none⟩,
          fun _ => none⟩
        ⟨fun k => if k = "core:GET /x" then some (0, 99) else none,
          fun _ => none, 0⟩
        50 "core" "GET /x" "u1") = .bypass (0, 0) :=
  claim10_zero_quantity_override.1 "ns:core:u1" _ _ 50 "core" "GET /x" "u1" 99
    (by decide) (by intro t h; cases h) (by decide) (by decide)

/-- C6: after `dyn_update (now, c, A, B)` the cursor equals
`max (old cursor) c` (so it never decreases), every stored dynamic entry
has expiry strictly greater than `now`, and consequently the readers
`redlist(now)`, `redrules(now)` and the redlist guard used by
`limit_args(now, …)` never act on an entry whose expiry is `≤ now`. -/
theorem claim6_dyn_update_freshness (dr : DynRedRules) (now c : Nat)
    (A : String → Option Nat) (B : String → Option (Nat × Nat)) :
    (dyn_update dr now c A B).redlist_cursor = max dr.redlist_cursor c ∧
    dr.redlist_cursor ≤ (dyn_update dr now c A B).redlist_cursor ∧
    (∀ k v, (dyn_update dr now c A B).redlist k = some v → now < v) ∧
    (∀ k q t, (dyn_update dr now c A B).redrules k = some (q, t) → now < t) ∧
    (∀ k v, redlist_read (dyn_update dr now c A B) now k = some v → now < v) ∧
    (∀ k q t,
      redrules_read (dyn_update dr now c A B) now k = some (q, t) → now < t) ∧
    (∀ id t, (dyn_update dr now c A B).redlist (NS.redlist_key id) = some t →
      now ≤ t → now < t) := by
  have hretL : ∀ k w, dyn_retainL dr now k = some w → now < w := by
    intro k w hw
    unfold dyn_retainL at hw
    split at hw
    · split at hw
      · cases hw; assumption
      · cases hw
    · cases hw
  have hretR : ∀ k p, dyn_retainR dr now k = some p → now < p.2 := by
    intro k p hp
    unfold dyn_retainR at hp
    split at hp
    · split at hp
      · cases hp; assumption
      · cases hp
    · cases hp
  have hlist : ∀ k v, (dyn_update dr now c A B).redlist k = some v → now < v := by
    intro k v h
    simp only [dyn_update] at h
    split at h
    · split at h
      · cases h; assumption
      · exact hretL k v h
    · exact hretL k v h
  have hrules : ∀ k q t,
      (dyn_update dr now c A B).redrules k = some (q, t) → now < t := by
    intro k q t h
    simp only [dyn_update] at h
    split at h
    · split at h
      · cases h; assumption
      · exact hretR k (q, t) h
    · exact hretR k (q, t) h
  refine ⟨?_, ?_, hlist, hrules, ?_, ?_, ?_⟩
  · simp only [dyn_update]
    split <;> omega
  · simp only [dyn_update]
    split <;> omega
  · intro k v h
    unfold redlist_read at h
    split at h
    · split at h
      · cases h
        next hm _ => exact hlist k v hm
      · cases h
    · cases h
  · intro k q t h
    unfold redrules_read at h
    split at h
    next u hm =>
      split at h
      · cases h
        exact hrules k q t hm
      · cases h
    next hm => cases h
  · intro id t h _
    exact hlist _ t h

theorem claim6_dyn_update_freshness_witness :
    (dyn_update ⟨fun _ => none, fun k => if k = "u" then some 7 else none, 3⟩
        5 4 (fun k => if k = "w" then some 9 else none)
        (fun _ => none)).redlist_cursor = max 3 4 ∧
    5 < 9 :=
  ⟨(claim6_dyn_update_freshness _ 5 4 _ _).1,
   (claim6_dyn_update_freshness
      ⟨fun _ => none, fun k => if k = "u" then some 7 else none, 3⟩ 5 4
      (fun k => if k = "w" then some 9 else none)
      (fun _ => none)).2.2.1 "w" 9 (by decide)⟩

/-! ## The limiter service response (src/api.rs, `post_limiting`) -/

/-- The fields of the JSON response assembled by `post_limiting`. -/
structure LimitResponse where
  limit : Nat
  remaining : Nat
  reset : Nat
  retry : Nat
deriving DecidableEq, Repr

/-- The two fallback matches in `post_limiting`: the backend future is
raced against a 100 ms deadline (the deadline outcome is the boolean
oracle `timedOut` here), a timeout is turned into an error, and any error
is substituted by `LimitResult(0, 0)` (fail-open). -/
def post_limiting_rt (timedOut : Bool) (backend : Except String (Nat × Nat)) :
    Nat × Nat :=
  let raced : Except String (Nat × Nat) :=
    if timedOut then .error "limiting timeout" else backend
  match raced with
  | .ok rt => rt
  | .error _ => (0, 0)

/-- Response assembly of `post_limiting`: `limit` is the resolved
`maxCount`, `remaining` is the truncated difference, `reset` is
`(now + waitMs) / 1000` when limited and 0 otherwise, `retry` is
`waitMs`. -/
def post_limiting_response (ts : Nat) (args : LimitArgs) (rt : Nat × Nat) :
    LimitResponse :=
  { limit := args.maxCount,
    remaining := if rt.1 < args.maxCount then args.maxCount - rt.1 else 0,
    reset := if 0 < rt.2 then (ts + rt.2) / 1000 else 0,
    retry := rt.2 }

/-- C9: the deadline/error branch of `post_limiting` substitutes
`LimitResult(0, 0)` (fail-open), and for every request the response
satisfies `limit = maxCount` of the resolved args,
`remaining = max 0 (limit − count)`, `reset = (now + waitMs) / 1000` when
`waitMs > 0` and 0 otherwise, and `retry = waitMs`. -/
theorem claim9_post_limiting_response (ts : Nat) (args : LimitArgs)
    (timedOut : Bool) (backend : Except String (Nat × Nat)) :
    ((timedOut = true ∨ ∃ e, backend = .error e) →
      post_limiting_rt timedOut backend = (0, 0)) ∧
    (post_limiting_response ts args (post_limiting_rt timedOut backend)).limit
      = args.maxCount ∧
    ((post_limiting_response ts args (post_limiting_rt timedOut backend)).remaining : Int)
      = max ((args.maxCount : Int) -
             (post_limiting_rt timedOut backend).1) 0 ∧
    (post_limiting_response ts args (post_limiting_rt timedOut backend)).reset
      = (if 0 < (post_limiting_rt timedOut backend).2
         then (ts + (post_limiting_rt timedOut backend).2) / 1000 else 0) ∧
    (post_limiting_response ts args (post_limiting_rt timedOut backend)).retry
      = (post_limiting_rt timedOut backend).2 := by
  refine ⟨?_, rfl, ?_, rfl, rfl⟩
  · rintro (ht | ⟨e, he⟩)
    · unfold post_limiting_rt
      rw [ht]
      rfl
    · unfold post_limiting_rt
      cases timedOut with
      | true => rfl
      | false => rw [he]; rfl
  · simp only [post_limiting_response]
    by_cases h : (post_limiting_rt timedOut backend).1 < args.maxCount
    · rw [if_pos h]
      push_cast [Nat.cast_sub (Nat.le_of_lt h)]
      omega
    · rw [if_neg h]
      push_cast
      omega

theorem claim9_post_limiting_response_witness :
    post_limiting_rt true (.ok (5, 7)) = (0, 0) ∧
    (post_limiting_response 1500 ⟨1, 8, 1000, 5, 300⟩
       (post_limiting_rt false (.ok (3, 250)))).remaining = 5 :=
  ⟨(claim9_post_limiting_response 0 ⟨1, 8, 1000, 5, 300⟩ true (.ok (5, 7))).1
     (Or.inl rfl),
   by
    have h := (claim9_post_limiting_response 1500 ⟨1, 8, 1000, 5, 300⟩
      false (.ok (3, 250))).2.2.1
    have : ((post_limiting_response 1500 ⟨1, 8, 1000, 5, 300⟩
        (post_limiting_rt false (.ok (3, 250)))).remaining : Int) = 5 := by
      rw [h]; rfl
    exact_mod_cast this⟩

/-! ## The atomic limiter script (src/redlimit_lua.rs, `limiting`)

The counter key is a Redis hash with fields `c`, `b`, `t` plus a key TTL.
The fresh-key path always writes all three fields, so every key the script
creates carries all of them; `expAt` is the absolute expiry instant set by
`PEXPIRE` (`none` models a key without TTL, for which `PTTL` is -1).  One
script execution is atomic and is modelled at a single instant `ts`. -/

structure KeyData where
  c : Nat
  b : Nat
  t : Nat
  expAt : Option Nat
deriving DecidableEq, Repr

/-- Redis key visibility at instant `ts`: a key whose expiry has passed is
observably absent (`HMGET` returns nil for its fields). -/
def keyAlive (ts : Nat) : Option KeyData → Option KeyData
  | none => none
  | some k =>
    match k.expAt with
    | none => some k
    | some e => if e ≤ ts then none else some k

/-- `PTTL` of a live key at instant `ts`. -/
def pttl (ts : Nat) (k : KeyData) : Int :=
  match k.expAt with
  | none => -1
  | some e => (e : Int) - (ts : Int)

/-- Shared tail of the existing-key path of the `limiting` script: the
period-count check followed by either the reject (with the `PTTL ≤ 0`
DEL recovery) or the commit `HSET` (which never touches the TTL). -/
def commitExisting (st : Option KeyData) (ts M B : Nat) (k : KeyData)
    (c' burst burst_at : Nat) : Option KeyData × Nat × Nat :=
  if M < c' then
    if pttl ts k ≤ 0 then (none, k.c, 1)
    else (st, k.c, (pttl ts k).toNat)
  else if 0 < B then
    (some ⟨c', burst, burst_at, k.expAt⟩, c', 0)
  else
    (some ⟨c', k.b, k.t, k.expAt⟩, c', 0)

/-- The Lua `limiting(keys, args)` function executed atomically at instant
`ts` on the state `st` of the single counter key, with arguments
`(quantity, max_count, period, max_burst, burst_period)`.  Returns the new
stored state of the key and the result pair `[count, waitMs]`. -/
def limiting_lua (ts q M P B Pb : Nat) (st : Option KeyData) :
    Option KeyData × Nat × Nat :=
  if M < q then (st, q, 1)
  else
    match keyAlive ts st with
    | some k =>
      let c' := k.c + q
      if 0 < B then
        if k.t + Pb ≤ ts then
          commitExisting st ts M B k c' q ts
        else if B < k.b + q then
          (st, k.c, k.t + Pb - ts)
        else
          commitExisting st ts M B k c' (k.b + q) k.t
      else
        commitExisting st ts M B k c' k.b k.t
    | none =>
      if 0 < B then
        (some ⟨q, q, ts, some (ts + P)⟩, q, 0)
      else
        (some ⟨q, 0, 0, some (ts + P)⟩, q, 0)

lemma keyAlive_eq_some {ts : Nat} {st : Option KeyData} {k : KeyData}
    (h : keyAlive ts st = some k) : st = some k := by
  cases st with
  | none => simp [keyAlive] at h
  | some k0 =>
    have hk : k0 = k := by
      cases hexp : k0.expAt with
      | none => simpa [keyAlive, hexp] using h
      | some e =>
        by_cases hle : e ≤ ts
        · simp [keyAlive, hexp, hle] at h
        · simpa [keyAlive, hexp, hle] using h
    rw [hk]

lemma keyAlive_expAt_lt {ts : Nat} {st : Option KeyData} {k : KeyData}
    {e : Nat} (h : keyAlive ts st = some k) (he : k.expAt = some e) :
    ts < e := by
  have hst := keyAlive_eq_some h
  subst hst
  by_cases hle : e ≤ ts
  · simp [keyAlive, he, hle] at h
  · omega

lemma limiting_lua_alive {ts : Nat} {st : Option KeyData} {k : KeyData}
    (q M P B Pb : Nat) (hal : keyAlive ts st = some k) :
    limiting_lua ts q M P B Pb st =
      (if M < q then (st, q, 1)
       else if 0 < B then
         if k.t + Pb ≤ ts then commitExisting st ts M B k (k.c + q) q ts
         else if B < k.b + q then (st, k.c, k.t + Pb - ts)
         else commitExisting st ts M B k (k.c + q) (k.b + q) k.t
       else commitExisting st ts M B k (k.c + q) k.b k.t) := by
  unfold limiting_lua
  rw [hal]

lemma limiting_lua_dead {ts : Nat} {st : Option KeyData}
    (q M P B Pb : Nat) (hal : keyAlive ts st = none) :
    limiting_lua ts q M P B Pb st =
      (if M < q then (st, q, 1)
       else if 0 < B then (some ⟨q, q, ts, some (ts + P)⟩, q, 0)
       else (some ⟨q, 0, 0, some (ts + P)⟩, q, 0)) := by
  unfold limiting_lua
  rw [hal]

lemma pttl_of_expAt {ts : Nat} {k : KeyData} {e : Nat}
    (he : k.expAt = some e) : pttl ts k = (e : Int) - (ts : Int) := by
  unfold pttl
  rw [he]

/-- C2: a call to the `limiting` script that rejects (`waitMs > 0`) leaves
the stored state of the counter key unchanged — in particular nothing
observable through `HMGET c b t` or `PTTL` changes — provided the key, if
present, carries a TTL (every key the script itself creates does). -/
theorem claim2_reject_leaves_state (ts q M P B Pb : Nat)
    (st : Option KeyData)
    (hwf : ∀ k, st = some k → ∃ e, k.expAt = some e)
    (hrej : 0 < (limiting_lua ts q M P B Pb st).2.2) :
    (limiting_lua ts q M P B Pb st).1 = st := by
  cases hal : keyAlive ts st with
  | none =>
    rw [limiting_lua_dead q M P B Pb hal] at hrej ⊢
    by_cases hqM : M < q
    · rw [if_pos hqM]
    · rw [if_neg hqM] at hrej ⊢
      by_cases hB : 0 < B
      · rw [if_pos hB] at hrej; simp at hrej
      · rw [if_neg hB] at hrej; simp at hrej
  | some k =>
    rw [limiting_lua_alive q M P B Pb hal] at hrej ⊢
    obtain ⟨e, he⟩ := hwf k (keyAlive_eq_some hal)
    have hlt : ts < e := keyAlive_expAt_lt hal he
    have hpt : ¬ pttl ts k ≤ 0 := by
      rw [pttl_of_expAt he]
      omega
    have hcommit : ∀ c' burst burst_at,
        0 < (commitExisting st ts M B k c' burst burst_at).2.2 →
        (commitExisting st ts M B k c' burst burst_at).1 = st := by
      intro c' burst burst_at hr
      unfold commitExisting at *
      by_cases hc : M < c'
      · rw [if_pos hc] at hr ⊢
        rw [if_neg hpt] at hr ⊢
      · rw [if_neg hc] at hr
        by_cases hB : 0 < B
        · rw [if_pos hB] at hr; simp at hr
        · rw [if_neg hB] at hr; simp at hr
    by_cases hqM : M < q
    · rw [if_pos hqM]
    · rw [if_neg hqM] at hrej ⊢
      by_cases hB : 0 < B
      · rw [if_pos hB] at hrej ⊢
        by_cases hres : k.t + Pb ≤ ts
        · rw [if_pos hres] at hrej ⊢
          exact hcommit _ _ _ hrej
        · rw [if_neg hres] at hrej ⊢
          by_cases hbr : B < k.b + q
          · rw [if_pos hbr]
          · rw [if_neg hbr] at hrej ⊢
            exact hcommit _ _ _ hrej
      · rw [if_neg hB] at hrej ⊢
        exact hcommit _ _ _ hrej

theorem claim2_reject_leaves_state_witness :
    (limiting_lua 500 1 2 1000 0 0 (some ⟨2, 0, 0, some 1000⟩)).1 =
      some ⟨2, 0, 0, some 1000⟩ :=
  claim2_reject_leaves_state 500 1 2 1000 0 0 (some ⟨2, 0, 0, some 1000⟩)
    (fun k hk => by cases hk; exact ⟨1000, rfl⟩) (by decide)

/-- C3: the `limiting` script sets the key TTL only on the fresh-key path
(`PEXPIRE periodMs` right after the first `HSET`): if the key is live its
expiry instant is never changed by any path, if the key is absent and the
call is not the `quantity > maxCount` shortcut a key with expiry
`ts + periodMs` is created, and the shortcut path touches nothing. -/
theorem claim3_ttl_set_once (ts q M P B Pb : Nat) (st : Option KeyData) :
    (∀ k e, keyAlive ts st = some k → k.expAt = some e →
      ∃ k', (limiting_lua ts q M P B Pb st).1 = some k' ∧
        k'.expAt = some e) ∧
    (keyAlive ts st = none → ¬ M < q →
      ∃ k', (limiting_lua ts q M P B Pb st).1 = some k' ∧
        k'.expAt = some (ts + P) ∧ k'.c = q) ∧
    (keyAlive ts st = none → M < q →
      (limiting_lua ts q M P B Pb st).1 = st) := by
  refine ⟨?_, ?_, ?_⟩
  · intro k e hal he
    rw [limiting_lua_alive q M P B Pb hal]
    have hlt : ts < e := keyAlive_expAt_lt hal he
    have hpt : ¬ pttl ts k ≤ 0 := by
      rw [pttl_of_expAt he]
      omega
    have hcommit : ∀ c' burst burst_at,
        ∃ k', (commitExisting st ts M B k c' burst burst_at).1 = some k' ∧
          k'.expAt = some e := by
      intro c' burst burst_at
      unfold commitExisting
      by_cases hc : M < c'
      · rw [if_pos hc, if_neg hpt]
        exact ⟨k, keyAlive_eq_some hal, he⟩
      · rw [if_neg hc]
        by_cases hB : 0 < B
        · rw [if_pos hB]
          exact ⟨⟨c', burst, burst_at, k.expAt⟩, rfl, he⟩
        · rw [if_neg hB]
          exact ⟨⟨c', k.b, k.t, k.expAt⟩, rfl, he⟩
    by_cases hqM : M < q
    · rw [if_pos hqM]
      exact ⟨k, keyAlive_eq_some hal, he⟩
    · rw [if_neg hqM]
      by_cases hB : 0 < B
      · rw [if_pos hB]
        by_cases hres : k.t + Pb ≤ ts
        · rw [if_pos hres]; exact hcommit _ _ _
        · rw [if_neg hres]
          by_cases hbr : B < k.b + q
          · rw [if_pos hbr]
            exact ⟨k, keyAlive_eq_some hal, he⟩
          · rw [if_neg hbr]; exact hcommit _ _ _
      · rw [if_neg hB]; exact hcommit _ _ _
  · intro hal hqM
    rw [limiting_lua_dead q M P B Pb hal, if_neg hqM]
    by_cases hB : 0 < B
    · rw [if_pos hB]
      exact ⟨⟨q, q, ts, some (ts + P)⟩, rfl, rfl, rfl⟩
    · rw [if_neg hB]
      exact ⟨⟨q, 0, 0, some (ts + P)⟩, rfl, rfl, rfl⟩
  · intro hal hqM
    rw [limiting_lua_dead q M P B Pb hal, if_pos hqM]

theorem claim3_ttl_set_once_witness :
    (∃ k', (limiting_lua 500 1 8 1000 5 300
        (some ⟨3, 1, 400, some 1200⟩)).1 = some k' ∧
      k'.expAt = some 1200) ∧
    (∃ k', (limiting_lua 0 1 8 1000 5 300 none).1 = some k' ∧
      k'.expAt = some (0 + 1000) ∧ k'.c = 1) :=
  ⟨(claim3_ttl_set_once 500 1 8 1000 5 300 (some ⟨3, 1, 400, some 1200⟩)).1
     ⟨3, 1, 400, some 1200⟩ 1200 (by decide) rfl,
   (claim3_ttl_set_once 0 1 8 1000 5 300 none).2.1 rfl (by decide)⟩

/-! ## Traces of the limiting script on one counter key

`runL` replays a time-ordered list of calls with fixed script arguments
against a single counter key, returning the final stored state and, per
call, the triple `(time, count, waitMs)`.  A call is admitted exactly when
its `waitMs` is 0. -/

def runL (q M P B Pb : Nat) (st : Option KeyData) :
    List Nat → Option KeyData × List (Nat × Nat × Nat)
  | [] => (st, [])
  | ts :: rest =>
    let s := limiting_lua ts q M P B Pb st
    let r := runL q M P B Pb s.1 rest
    (r.1, (ts, s.2.1, s.2.2) :: r.2)

/-- Sum of the quantity `q` over the admitted calls of an output trace
whose time is at least `a` (for a window starting at `a`). -/
def admittedFrom (q a : Nat) : List (Nat × Nat × Nat) → Nat
  | [] => 0
  | o :: rest => (if a ≤ o.1 ∧ o.2.2 = 0 then q else 0) + admittedFrom q a rest

/-- C1 counterexample: with parameters `(q, M, P, B, Pb) = (1, 2, 1000, 0,
0)` the calls at times 0, 999, 1000 and 1001 are all admitted, yet the
three admitted calls at 999, 1000 and 1001 lie inside the single time
window `[999, 999 + 1000)` and their quantities sum to 3 > 2 = maxCount:
the fixed-window counter does not bound arbitrary sliding windows of
duration `periodMs`. -/
theorem claim1_sliding_window_counterexample :
    (runL 1 2 1000 0 0 none [0, 999, 1000, 1001]).2 =
      [(0, 1, 0), (999, 2, 0), (1000, 1, 0), (1001, 2, 0)] ∧
    1001 < 999 + 1000 ∧
    admittedFrom 1 999 (runL 1 2 1000 0 0 none [0, 999, 1000, 1001]).2 = 3 ∧
    ¬ admittedFrom 1 999 (runL 1 2 1000 0 0 none [0, 999, 1000, 1001]).2 ≤ 2 :=
  by decide

/-! ## Per-window accounting for the limiting script

`carryC st0 e` / `carryB st0 e t` are the parts of the stored count /
burst count that predate a trace: the key's count carries over only if the
trace starts with the very same window (same expiry instant `e`; for the
burst, also the same burst-window start `t`). -/

def carryC (st0 : Option KeyData) (e : Nat) : Nat :=
  match st0 with
  | some k0 => if k0.expAt = some e then k0.c else 0
  | none => 0

def carryB (st0 : Option KeyData) (e t : Nat) : Nat :=
  match st0 with
  | some k0 => if k0.expAt = some e ∧ k0.t = t then k0.b else 0
  | none => 0

/-- States reachable by the script: a present key has a TTL, its expiry is
at most one period past the lower time bound `lb` of the upcoming calls,
its count respects `maxCount`, and with burst enabled its burst count
respects `maxBurst` and its burst window started at or before `lb`. -/
def KInv (M B P lb : Nat) (st : Option KeyData) : Prop :=
  ∀ k, st = some k → ∃ e, k.expAt = some e ∧ e ≤ lb + P ∧ k.c ≤ M ∧
    (0 < B → k.b ≤ B ∧ k.t ≤ lb)

/-- How the expiry instant `e` of the key surviving a trace relates to the
state the trace started from: either that window was already current, or
it opened a full period after every pre-existing window. -/
def AuxC (P : Nat) (st0 : Option KeyData) (lb e : Nat) : Prop :=
  (∃ k0, st0 = some k0 ∧ k0.expAt = some e) ∨
  ((∀ k0 e0, st0 = some k0 → k0.expAt = some e0 → e0 + P ≤ e) ∧
   (st0 = none → lb + P ≤ e))

/-- The burst-window analogue of `AuxC`: the surviving burst window was
either already current, or started a full burst period after the
pre-existing one (same key) or not before the pre-existing key expired. -/
def AuxB (Pb : Nat) (st0 : Option KeyData) (lb e t : Nat) : Prop :=
  (∃ k0, st0 = some k0 ∧ k0.expAt = some e ∧ k0.t = t) ∨
  ((∀ k0, st0 = some k0 → k0.expAt = some e → k0.t + Pb ≤ t) ∧
   (∀ k0 e0, st0 = some k0 → k0.expAt = some e0 → e0 ≠ e → e0 ≤ t) ∧
   (st0 = none → lb ≤ t))

lemma KInv_mono {M B P lb lb' : Nat} {st : Option KeyData} (h : lb ≤ lb') :
    KInv M B P lb st → KInv M B P lb' st := by
  intro hi k hk
  obtain ⟨e, he, hele, hc, hb⟩ := hi k hk
  exact ⟨e, he, by omega, hc, fun hB => ⟨(hb hB).1, le_trans (hb hB).2 h⟩⟩

lemma AuxC_anti {P lb lb' e : Nat} {st : Option KeyData} (h : lb ≤ lb') :
    AuxC P st lb' e → AuxC P st lb e := by
  rintro (hl | ⟨h1, h2⟩)
  · exact Or.inl hl
  · exact Or.inr ⟨h1, fun hn => by have := h2 hn; omega⟩

lemma AuxB_anti {Pb lb lb' e t : Nat} {st : Option KeyData} (h : lb ≤ lb') :
    AuxB Pb st lb' e t → AuxB Pb st lb e t := by
  rintro (hl | ⟨h1, h2, h3⟩)
  · exact Or.inl hl
  · exact Or.inr ⟨h1, h2, fun hn => by have := h3 hn; omega⟩

lemma keyAlive_none_le {ts : Nat} {k0 : KeyData} {e0 : Nat}
    (h : keyAlive ts (some k0) = none) (he : k0.expAt = some e0) :
    e0 ≤ ts := by
  by_cases hle : e0 ≤ ts
  · exact hle
  · simp [keyAlive, he, hle] at h

lemma runL_cons_fst (q M P B Pb ts : Nat) (rest : List Nat)
    (st : Option KeyData) :
    (runL q M P B Pb st (ts :: rest)).1 =
      (runL q M P B Pb (limiting_lua ts q M P B Pb st).1 rest).1 := rfl

lemma runL_cons_snd (q M P B Pb ts : Nat) (rest : List Nat)
    (st : Option KeyData) :
    (runL q M P B Pb st (ts :: rest)).2 =
      (ts, (limiting_lua ts q M P B Pb st).2.1,
        (limiting_lua ts q M P B Pb st).2.2) ::
      (runL q M P B Pb (limiting_lua ts q M P B Pb st).1 rest).2 := rfl

lemma admittedFrom_cons (q a : Nat) (o : Nat × Nat × Nat)
    (l : List (Nat × Nat × Nat)) :
    admittedFrom q a (o :: l) =
      (if a ≤ o.1 ∧ o.2.2 = 0 then q else 0) + admittedFrom q a l := rfl

/-- Exhaustive characterization of one execution of the `limiting` script
from a script-reachable state: the call either rejects without touching
the key, opens a fresh window, or commits into the live window (with a
burst-window reset, a plain burst commit, or the burst-free commit). -/
lemma step_shape (ts q M P B Pb : Nat) (st0 : Option KeyData)
    (hwf : ∀ k, st0 = some k → ∃ e, k.expAt = some e) :
    (∃ cnt w, limiting_lua ts q M P B Pb st0 = (st0, cnt, w) ∧ w ≠ 0) ∨
    (keyAlive ts st0 = none ∧ q ≤ M ∧
      ((0 < B ∧ limiting_lua ts q M P B Pb st0 =
          (some ⟨q, q, ts, some (ts + P)⟩, q, 0)) ∨
       (¬ 0 < B ∧ limiting_lua ts q M P B Pb st0 =
          (some ⟨q, 0, 0, some (ts + P)⟩, q, 0)))) ∨
    (∃ k0, st0 = some k0 ∧ keyAlive ts st0 = some k0 ∧ k0.c + q ≤ M ∧
      ((0 < B ∧ k0.t + Pb ≤ ts ∧ limiting_lua ts q M P B Pb st0 =
          (some ⟨k0.c + q, q, ts, k0.expAt⟩, k0.c + q, 0)) ∨
       (0 < B ∧ ¬ k0.t + Pb ≤ ts ∧ k0.b + q ≤ B ∧
          limiting_lua ts q M P B Pb st0 =
            (some ⟨k0.c + q, k0.b + q, k0.t, k0.expAt⟩, k0.c + q, 0)) ∨
       (¬ 0 < B ∧ limiting_lua ts q M P B Pb st0 =
          (some ⟨k0.c + q, k0.b, k0.t, k0.expAt⟩, k0.c + q, 0)))) := by
  by_cases hqM : M < q
  · refine Or.inl ⟨q, 1, ?_, by omega⟩
    unfold limiting_lua
    rw [if_pos hqM]
  · cases hal : keyAlive ts st0 with
    | none =>
      refine Or.inr (Or.inl ⟨rfl, by omega, ?_⟩)
      by_cases hB : 0 < B
      · exact Or.inl ⟨hB, by
          rw [limiting_lua_dead q M P B Pb hal, if_neg hqM, if_pos hB]⟩
      · exact Or.inr ⟨hB, by
          rw [limiting_lua_dead q M P B Pb hal, if_neg hqM, if_neg hB]⟩
    | some k0 =>
      have hst0 := keyAlive_eq_some hal
      obtain ⟨e0, he0⟩ := hwf k0 hst0
      have hts : ts < e0 := keyAlive_expAt_lt hal he0
      have hpt : ¬ pttl ts k0 ≤ 0 := by rw [pttl_of_expAt he0]; omega
      have hlua := limiting_lua_alive q M P B Pb hal
      have hrejc : ∀ burst burst_at, M < k0.c + q →
          commitExisting st0 ts M B k0 (k0.c + q) burst burst_at =
            (st0, k0.c, (pttl ts k0).toNat) := by
        intro burst burst_at hcnt
        unfold commitExisting
        rw [if_pos hcnt, if_neg hpt]
      have hwne : ((pttl ts k0).toNat : Nat) ≠ 0 := by
        rw [pttl_of_expAt he0]
        omega
      by_cases hB : 0 < B
      · by_cases hres : k0.t + Pb ≤ ts
        · by_cases hcnt : M < k0.c + q
          · refine Or.inl ⟨k0.c, (pttl ts k0).toNat, ?_, hwne⟩
            rw [hlua, if_neg hqM, if_pos hB, if_pos hres, hrejc _ _ hcnt]
          · refine Or.inr (Or.inr ⟨k0, hst0, rfl, by omega,
              Or.inl ⟨hB, hres, ?_⟩⟩)
            rw [hlua, if_neg hqM, if_pos hB, if_pos hres]
            unfold commitExisting
            rw [if_neg hcnt, if_pos hB]
        · by_cases hbr : B < k0.b + q
          · refine Or.inl ⟨k0.c, k0.t + Pb - ts, ?_, by omega⟩
            rw [hlua, if_neg hqM, if_pos hB, if_neg hres, if_pos hbr]
          · by_cases hcnt : M < k0.c + q
            · refine Or.inl ⟨k0.c, (pttl ts k0).toNat, ?_, hwne⟩
              rw [hlua, if_neg hqM, if_pos hB, if_neg hres, if_neg hbr,
                hrejc _ _ hcnt]
            · refine Or.inr (Or.inr ⟨k0, hst0, rfl, by omega,
                Or.inr (Or.inl ⟨hB, hres, by omega, ?_⟩)⟩)
              rw [hlua, if_neg hqM, if_pos hB, if_neg hres, if_neg hbr]
              unfold commitExisting
              rw [if_neg hcnt, if_pos hB]
      · by_cases hcnt : M < k0.c + q
        · refine Or.inl ⟨k0.c, (pttl ts k0).toNat, ?_, hwne⟩
          rw [hlua, if_neg hqM, if_neg hB, hrejc _ _ hcnt]
        · refine Or.inr (Or.inr ⟨k0, hst0, rfl, by omega,
            Or.inr (Or.inr ⟨hB, ?_⟩)⟩)
          rw [hlua, if_neg hqM, if_neg hB]
          unfold commitExisting
          rw [if_neg hcnt, if_neg hB]

lemma carryC_none (e : Nat) : carryC none e = 0 := rfl

lemma carryC_some_eq {k0 : KeyData} {e : Nat} (h : k0.expAt = some e) :
    carryC (some k0) e = k0.c := by simp [carryC, h]

lemma carryC_some_ne {k0 : KeyData} {e : Nat} (h : ¬ k0.expAt = some e) :
    carryC (some k0) e = 0 := by simp [carryC, h]

lemma carryB_none (e t : Nat) : carryB none e t = 0 := rfl

lemma carryB_some_eq {k0 : KeyData} {e t : Nat} (h1 : k0.expAt = some e)
    (h2 : k0.t = t) : carryB (some k0) e t = k0.b := by
  simp [carryB, h1, h2]

lemma carryB_some_ne {k0 : KeyData} {e t : Nat}
    (h : ¬ (k0.expAt = some e ∧ k0.t = t)) : carryB (some k0) e t = 0 := by
  simp only [carryB, if_neg h]

/-- The count-accounting step for an admitted call into a live window: the
head call contributes `q` exactly when the surviving window is the one the
call committed into. -/
lemma existing_step_count (q M P B Pb : Nat)
    (rest : List Nat) (ts lb : Nat) (k0 k1 k : KeyData) (e e0 : Nat)
    (he0 : k0.expAt = some e0)
    (he0le : e0 ≤ lb + P) (hlbts : lb ≤ ts) (hts0 : ts < e0)
    (hk1e : k1.expAt = some e0) (hk1c : k1.c = k0.c + q)
    (heq : k.c = carryC (some k1) e +
      admittedFrom q (e - P) (runL q M P B Pb (some k1) rest).2)
    (hauxC : AuxC P (some k1) ts e) :
    k.c = carryC (some k0) e +
      ((if e - P ≤ ts ∧ (0 : Nat) = 0 then q else 0) +
        admittedFrom q (e - P) (runL q M P B Pb (some k1) rest).2) ∧
    AuxC P (some k0) lb e := by
  by_cases he2 : e = e0
  · subst he2
    constructor
    · have hcond : e - P ≤ ts ∧ (0 : Nat) = 0 := ⟨by omega, rfl⟩
      rw [carryC_some_eq hk1e, hk1c] at heq
      rw [carryC_some_eq he0, if_pos hcond]
      omega
    · exact Or.inl ⟨k0, rfl, he0⟩
  · have hge : e0 + P ≤ e := by
      rcases hauxC with ⟨k1', hk1', he1'⟩ | ⟨h1, _⟩
      · exfalso
        cases hk1'
        rw [hk1e] at he1'
        exact he2 (Option.some.inj he1').symm
      · exact h1 k1 e0 rfl hk1e
    constructor
    · have hcond : ¬ (e - P ≤ ts ∧ (0 : Nat) = 0) := by
        rintro ⟨h1, _⟩
        omega
      have hc1 : carryC (some k1) e = 0 := carryC_some_ne (by
        rw [hk1e]
        intro hh
        exact he2 (Option.some.inj hh).symm)
      have hc0 : carryC (some k0) e = 0 := carryC_some_ne (by
        rw [he0]
        intro hh
        exact he2 (Option.some.inj hh).symm)
      rw [hc1, Nat.zero_add] at heq
      rw [hc0, if_neg hcond, Nat.zero_add, Nat.zero_add]
      exact heq
    · refine Or.inr ⟨?_, ?_⟩
      · intro k0' e0' h0' he0'
        cases h0'
        rw [he0] at he0'
        cases he0'
        exact hge
      · intro h0
        cases h0

/-- Central accounting invariant of the `limiting` script along a
time-ordered trace of calls on one key: the surviving key's count equals
the carried-over count of its window plus `q` per admitted call since the
window opened, and stays within `maxCount`; with burst enabled the same
holds for the burst count within the current burst window and `maxBurst`. -/
theorem runL_window_accounting (q M P B Pb : Nat) (hP : 0 < P)
    (hqB : 0 < B → q ≤ B) (hPb : 0 < B → 0 < Pb) :
    ∀ (times : List Nat) (st0 : Option KeyData) (lb : Nat),
      times.Pairwise (· ≤ ·) → (∀ t ∈ times, lb ≤ t) →
      KInv M B P lb st0 →
      ∀ k, (runL q M P B Pb st0 times).1 = some k →
        ∃ e, k.expAt = some e ∧ k.c ≤ M ∧
          k.c = carryC st0 e +
            admittedFrom q (e - P) (runL q M P B Pb st0 times).2 ∧
          AuxC P st0 lb e ∧
          (0 < B → k.b ≤ B ∧
            k.b = carryB st0 e k.t +
              admittedFrom q k.t (runL q M P B Pb st0 times).2 ∧
            AuxB Pb st0 lb e k.t) := by
  intro times
  induction times with
  | nil =>
    intro st0 lb _ _ hinv k hk
    have hk' : st0 = some k := hk
    subst hk'
    obtain ⟨e, he, _, hcM, hb⟩ := hinv k rfl
    refine ⟨e, he, hcM, ?_, Or.inl ⟨k, rfl, he⟩, ?_⟩
    · show k.c = carryC (some k) e + admittedFrom q (e - P) []
      rw [carryC_some_eq he]
      rfl
    · intro hB
      refine ⟨(hb hB).1, ?_, Or.inl ⟨k, rfl, he, rfl⟩⟩
      show k.b = carryB (some k) e k.t + admittedFrom q k.t []
      rw [carryB_some_eq he rfl]
      rfl
  | cons ts rest ih =>
    intro st0 lb hpw hlb hinv k hk
    have hlbts : lb ≤ ts := hlb ts (List.mem_cons_self ts rest)
    rw [List.pairwise_cons] at hpw
    obtain ⟨hts_all, hpw'⟩ := hpw
    have hwf : ∀ k', st0 = some k' → ∃ e, k'.expAt = some e := by
      intro k' hk'
      obtain ⟨e, he, _⟩ := hinv k' hk'
      exact ⟨e, he⟩
    rcases step_shape ts q M P B Pb st0 hwf with
      ⟨cnt, w, hstep, hw⟩ | ⟨hal, hqM, hfresh⟩ | ⟨k0, hst0, hal, hcnt, hex⟩
    · -- rejected call: state unchanged, head contributes nothing
      have hk' : (runL q M P B Pb st0 rest).1 = some k := by
        rw [runL_cons_fst, hstep] at hk
        exact hk
      obtain ⟨e, he, hcM, heq, hauxC, hburst⟩ :=
        ih st0 ts hpw' hts_all (KInv_mono hlbts hinv) k hk'
      refine ⟨e, he, hcM, ?_, AuxC_anti hlbts hauxC, ?_⟩
      · rw [runL_cons_snd, hstep]
        show k.c = carryC st0 e + ((if e - P ≤ ts ∧ w = 0 then q else 0) +
          admittedFrom q (e - P) (runL q M P B Pb st0 rest).2)
        rw [if_neg (fun hh => hw hh.2), Nat.zero_add]
        exact heq
      · intro hB
        obtain ⟨hbB, heqB, hauxB⟩ := hburst hB
        refine ⟨hbB, ?_, AuxB_anti hlbts hauxB⟩
        rw [runL_cons_snd, hstep]
        show k.b = carryB st0 e k.t + ((if k.t ≤ ts ∧ w = 0 then q else 0) +
          admittedFrom q k.t (runL q M P B Pb st0 rest).2)
        rw [if_neg (fun hh => hw hh.2), Nat.zero_add]
        exact heqB
    · -- fresh window opened at ts
      have hdeadle : ∀ k0 e0, st0 = some k0 → k0.expAt = some e0 → e0 ≤ ts := by
        intro k0 e0 h0 he0
        refine keyAlive_none_le ?_ he0
        rw [← h0]
        exact hal
      rcases hfresh with ⟨hB0, hstep⟩ | ⟨hB0, hstep⟩
      · -- burst enabled fresh key ⟨q, q, ts, ts + P⟩
        have hk' : (runL q M P B Pb (some ⟨q, q, ts, some (ts + P)⟩) rest).1
            = some k := by
          rw [runL_cons_fst, hstep] at hk
          exact hk
        have hinv' : KInv M B P ts (some ⟨q, q, ts, some (ts + P)⟩) := by
          intro k' hk'
          cases hk'
          exact ⟨ts + P, rfl, Nat.le_refl _, hqM,
            fun hB => ⟨hqB hB, Nat.le_refl ts⟩⟩
        obtain ⟨e, he, hcM, heq, hauxC, hburst⟩ :=
          ih (some ⟨q, q, ts, some (ts + P)⟩) ts hpw' hts_all hinv' k hk'
        have hePge : ts + P ≤ e := by
          rcases hauxC with ⟨k1, hk1, he1⟩ | ⟨h1, _⟩
          · cases hk1
            have : ts + P = e := Option.some.inj he1
            omega
          · have := h1 ⟨q, q, ts, some (ts + P)⟩ (ts + P) rfl rfl
            omega
        have hcarryC0 : carryC st0 e = 0 := by
          cases hst0 : st0 with
          | none => rfl
          | some k0 =>
            obtain ⟨e0, he0⟩ := hwf k0 hst0
            have hle := hdeadle k0 e0 hst0 he0
            refine carryC_some_ne ?_
            rw [he0]
            intro hh
            have := Option.some.inj hh
            omega
        refine ⟨e, he, hcM, ?_, ?_, ?_⟩
        · rw [runL_cons_snd, hstep]
          show k.c = carryC st0 e +
            ((if e - P ≤ ts ∧ (0 : Nat) = 0 then q else 0) +
              admittedFrom q (e - P)
                (runL q M P B Pb (some ⟨q, q, ts, some (ts + P)⟩) rest).2)
          rw [hcarryC0, Nat.zero_add]
          by_cases he2 : e = ts + P
          · rw [if_pos ⟨by omega, rfl⟩]
            have hc1 : carryC (some ⟨q, q, ts, some (ts + P)⟩) e = q :=
              carryC_some_eq (by rw [he2])
            rw [hc1] at heq
            exact heq
          · have hgt : ts + P + P ≤ e := by
              rcases hauxC with ⟨k1, hk1, he1⟩ | ⟨h1, _⟩
              · exfalso
                cases hk1
                exact he2 (Option.some.inj he1).symm
              · exact h1 ⟨q, q, ts, some (ts + P)⟩ (ts + P) rfl rfl
            rw [if_neg (by rintro ⟨h1, _⟩; omega), Nat.zero_add]
            have hc1 : carryC (some ⟨q, q, ts, some (ts + P)⟩) e = 0 :=
              carryC_some_ne (by
                intro hh
                exact he2 (Option.some.inj hh).symm)
            rw [hc1, Nat.zero_add] at heq
            exact heq
        · refine Or.inr ⟨?_, ?_⟩
          · intro k0 e0 h0 he0
            have := hdeadle k0 e0 h0 he0
            omega
          · intro _
            omega
        · intro hB
          obtain ⟨hbB, heqB, hauxB⟩ := hburst hB
          have hPb0 : 0 < Pb := hPb hB
          have htge : ts ≤ k.t := by
            rcases hauxB with ⟨k1, hk1, he1, ht1⟩ | ⟨h1, h2, _⟩
            · cases hk1
              exact Nat.le_of_eq ht1
            · by_cases hce : ts + P = e
              · have hkfe : (⟨q, q, ts, some (ts + P)⟩ : KeyData).expAt
                    = some e := by rw [← hce]
                have hh : ts + Pb ≤ k.t := h1 ⟨q, q, ts, some (ts + P)⟩ rfl hkfe
                omega
              · have := h2 ⟨q, q, ts, some (ts + P)⟩ (ts + P) rfl rfl hce
                omega
          have hcarryB0 : carryB st0 e k.t = 0 := by
            cases hst0 : st0 with
            | none => rfl
            | some k0 =>
              obtain ⟨e0, he0⟩ := hwf k0 hst0
              have hle := hdeadle k0 e0 hst0 he0
              refine carryB_some_ne ?_
              rintro ⟨hh, _⟩
              rw [he0] at hh
              have := Option.some.inj hh
              omega
          refine ⟨hbB, ?_, ?_⟩
          · rw [runL_cons_snd, hstep]
            show k.b = carryB st0 e k.t +
              ((if k.t ≤ ts ∧ (0 : Nat) = 0 then q else 0) +
                admittedFrom q k.t
                  (runL q M P B Pb (some ⟨q, q, ts, some (ts + P)⟩) rest).2)
            rw [hcarryB0, Nat.zero_add]
            by_cases hcc : (⟨q, q, ts, some (ts + P)⟩ : KeyData).expAt
                = some e ∧ (⟨q, q, ts, some (ts + P)⟩ : KeyData).t = k.t
            · obtain ⟨hcce, hcct⟩ := hcc
              have hcct' : ts = k.t := hcct
              rw [if_pos ⟨by omega, rfl⟩]
              have hc1 : carryB (some ⟨q, q, ts, some (ts + P)⟩) e k.t = q :=
                carryB_some_eq hcce hcct
              rw [hc1] at heqB
              exact heqB
            · have htlt : ts < k.t := by
                rcases hauxB with ⟨k1, hk1, he1, ht1⟩ | ⟨h1, h2, _⟩
                · exfalso
                  cases hk1
                  exact hcc ⟨he1, ht1⟩
                · by_cases hce : (⟨q, q, ts, some (ts + P)⟩ : KeyData).expAt
                      = some e
                  · have := h1 ⟨q, q, ts, some (ts + P)⟩ rfl hce
                    have hh : ts + Pb ≤ k.t := this
                    omega
                  · have hne : ts + P ≠ e := fun hh => hce (by rw [← hh])
                    have := h2 ⟨q, q, ts, some (ts + P)⟩ (ts + P) rfl rfl hne
                    omega
              rw [if_neg (by rintro ⟨h1, _⟩; omega), Nat.zero_add]
              have hc1 : carryB (some ⟨q, q, ts, some (ts + P)⟩) e k.t = 0 :=
                carryB_some_ne hcc
              rw [hc1, Nat.zero_add] at heqB
              exact heqB
          · refine Or.inr ⟨?_, ?_, ?_⟩
            · intro k0 h0 he0
              exfalso
              obtain ⟨e0, he0'⟩ := hwf k0 h0
              rw [he0'] at he0
              have h1 := Option.some.inj he0
              have h2 := hdeadle k0 e0 h0 he0'
              omega
            · intro k0 e0 h0 he0 _
              have := hdeadle k0 e0 h0 he0
              omega
            · intro _
              omega
      · -- burst disabled fresh key ⟨q, 0, 0, ts + P⟩
        have hk' : (runL q M P B Pb (some ⟨q, 0, 0, some (ts + P)⟩) rest).1
            = some k := by
          rw [runL_cons_fst, hstep] at hk
          exact hk
        have hinv' : KInv M B P ts (some ⟨q, 0, 0, some (ts + P)⟩) := by
          intro k' hk'
          cases hk'
          exact ⟨ts + P, rfl, Nat.le_refl _, hqM, fun hB => absurd hB hB0⟩
        obtain ⟨e, he, hcM, heq, hauxC, _⟩ :=
          ih (some ⟨q, 0, 0, some (ts + P)⟩) ts hpw' hts_all hinv' k hk'
        have hePge : ts + P ≤ e := by
          rcases hauxC with ⟨k1, hk1, he1⟩ | ⟨h1, _⟩
          · cases hk1
            have : ts + P = e := Option.some.inj he1
            omega
          · have := h1 ⟨q, 0, 0, some (ts + P)⟩ (ts + P) rfl rfl
            omega
        have hcarryC0 : carryC st0 e = 0 := by
          cases hst0 : st0 with
          | none => rfl
          | some k0 =>
            obtain ⟨e0, he0⟩ := hwf k0 hst0
            have hle := hdeadle k0 e0 hst0 he0
            refine carryC_some_ne ?_
            rw [he0]
            intro hh
            have := Option.some.inj hh
            omega
        refine ⟨e, he, hcM, ?_, ?_, fun hB => absurd hB hB0⟩
        · rw [runL_cons_snd, hstep]
          show k.c = carryC st0 e +
            ((if e - P ≤ ts ∧ (0 : Nat) = 0 then q else 0) +
              admittedFrom q (e - P)
                (runL q M P B Pb (some ⟨q, 0, 0, some (ts + P)⟩) rest).2)
          rw [hcarryC0, Nat.zero_add]
          by_cases he2 : e = ts + P
          · rw [if_pos ⟨by omega, rfl⟩]
            have hc1 : carryC (some ⟨q, 0, 0, some (ts + P)⟩) e = q :=
              carryC_some_eq (by rw [he2])
            rw [hc1] at heq
            exact heq
          · have hgt : ts + P + P ≤ e := by
              rcases hauxC with ⟨k1, hk1, he1⟩ | ⟨h1, _⟩
              · exfalso
                cases hk1
                exact he2 (Option.some.inj he1).symm
              · exact h1 ⟨q, 0, 0, some (ts + P)⟩ (ts + P) rfl rfl
            rw [if_neg (by rintro ⟨h1, _⟩; omega), Nat.zero_add]
            have hc1 : carryC (some ⟨q, 0, 0, some (ts + P)⟩) e = 0 :=
              carryC_some_ne (by
                intro hh
                exact he2 (Option.some.inj hh).symm)
            rw [hc1, Nat.zero_add] at heq
            exact heq
        · refine Or.inr ⟨?_, ?_⟩
          · intro k0 e0 h0 he0
            have := hdeadle k0 e0 h0 he0
            omega
          · intro _
            omega
    · -- live window: committed call
      obtain ⟨e0, he0, he0le, hc0M, hb0⟩ := hinv k0 hst0
      rw [hst0] at hal
      have hts0 : ts < e0 := keyAlive_expAt_lt hal he0
      rcases hex with ⟨hB0, hres, hstep⟩ | ⟨hB0, hres, hbok, hstep⟩ |
        ⟨hB0, hstep⟩
      · -- burst-window reset commit ⟨k0.c + q, q, ts, k0.expAt⟩
        have hk' : (runL q M P B Pb
            (some ⟨k0.c + q, q, ts, k0.expAt⟩) rest).1 = some k := by
          rw [runL_cons_fst, hstep] at hk
          exact hk
        have hinv' : KInv M B P ts (some ⟨k0.c + q, q, ts, k0.expAt⟩) := by
          intro k' hk'
          cases hk'
          exact ⟨e0, he0, by omega, hcnt, fun hB => ⟨hqB hB, Nat.le_refl ts⟩⟩
        obtain ⟨e, he, hcM, heq, hauxC, hburst⟩ :=
          ih (some ⟨k0.c + q, q, ts, k0.expAt⟩) ts hpw' hts_all hinv' k hk'
        have hsc := existing_step_count q M P B Pb rest ts lb k0
          ⟨k0.c + q, q, ts, k0.expAt⟩ k e e0 he0 he0le hlbts hts0 he0 rfl
          heq hauxC
        refine ⟨e, he, hcM, ?_, by rw [hst0]; exact hsc.2, ?_⟩
        · rw [runL_cons_snd, hstep, hst0]
          exact hsc.1
        · intro hB
          obtain ⟨hbB, heqB, hauxB⟩ := hburst hB
          have hPb0 : 0 < Pb := hPb hB
          have hk0tlt : k0.t < ts := by omega
          refine ⟨hbB, ?_, ?_⟩
          · rw [runL_cons_snd, hstep, hst0]
            show k.b = carryB (some k0) e k.t +
              ((if k.t ≤ ts ∧ (0 : Nat) = 0 then q else 0) +
                admittedFrom q k.t
                  (runL q M P B Pb (some ⟨k0.c + q, q, ts, k0.expAt⟩) rest).2)
            by_cases hcc : (⟨k0.c + q, q, ts, k0.expAt⟩ : KeyData).expAt
                = some e ∧ (⟨k0.c + q, q, ts, k0.expAt⟩ : KeyData).t = k.t
            · obtain ⟨hcce, hcct⟩ := hcc
              have hcct' : ts = k.t := hcct
              have hc1 : carryB (some ⟨k0.c + q, q, ts, k0.expAt⟩) e k.t = q :=
                carryB_some_eq hcce hcct
              have hc0 : carryB (some k0) e k.t = 0 := carryB_some_ne (by
                rintro ⟨_, h2⟩
                omega)
              rw [hc1] at heqB
              rw [hc0, if_pos ⟨by omega, rfl⟩, Nat.zero_add]
              exact heqB
            · have htlt : ts < k.t := by
                rcases hauxB with ⟨k1', hk1', he1', ht1'⟩ | ⟨h1, h2, _⟩
                · exfalso
                  cases hk1'
                  exact hcc ⟨he1', ht1'⟩
                · by_cases hce : (⟨k0.c + q, q, ts, k0.expAt⟩ : KeyData).expAt
                      = some e
                  · have hh : ts + Pb ≤ k.t := h1 _ rfl hce
                    omega
                  · have he0ne : e0 ≠ e := by
                      intro hh
                      apply hce
                      show k0.expAt = some e
                      rw [he0, hh]
                    have hh : e0 ≤ k.t := h2 _ e0 rfl he0 he0ne
                    omega
              have hc1 : carryB (some ⟨k0.c + q, q, ts, k0.expAt⟩) e k.t = 0 :=
                carryB_some_ne hcc
              have hc0 : carryB (some k0) e k.t = 0 := carryB_some_ne (by
                rintro ⟨_, h2⟩
                omega)
              rw [hc1, Nat.zero_add] at heqB
              rw [hc0, if_neg (by rintro ⟨h1, _⟩; omega), Nat.zero_add,
                Nat.zero_add]
              exact heqB
          · rw [hst0]
            rcases hauxB with ⟨k1', hk1', he1', ht1'⟩ | ⟨h1, h2, _⟩
            · cases hk1'
              have hct' : ts = k.t := ht1'
              refine Or.inr ⟨?_, ?_, ?_⟩
              · intro k0' h0' he0''
                cases h0'
                omega
              · intro k0' e0' h0' he0'' hne
                exfalso
                cases h0'
                have hee : k0.expAt = some e := he1'
                rw [he0''] at hee
                exact hne (Option.some.inj hee)
              · intro h0
                cases h0
            · refine Or.inr ⟨?_, ?_, ?_⟩
              · intro k0' h0' he0''
                cases h0'
                have hh : ts + Pb ≤ k.t := h1 _ rfl he0''
                omega
              · intro k0' e0' h0' he0'' hne
                cases h0'
                exact h2 _ e0' rfl he0'' hne
              · intro h0
                cases h0
      · -- in-window burst commit ⟨k0.c + q, k0.b + q, k0.t, k0.expAt⟩
        have hk' : (runL q M P B Pb
            (some ⟨k0.c + q, k0.b + q, k0.t, k0.expAt⟩) rest).1 = some k := by
          rw [runL_cons_fst, hstep] at hk
          exact hk
        have hinv' : KInv M B P ts
            (some ⟨k0.c + q, k0.b + q, k0.t, k0.expAt⟩) := by
          intro k' hk'
          cases hk'
          exact ⟨e0, he0, by omega, hcnt,
            fun hB => ⟨hbok, le_trans (hb0 hB).2 hlbts⟩⟩
        obtain ⟨e, he, hcM, heq, hauxC, hburst⟩ :=
          ih (some ⟨k0.c + q, k0.b + q, k0.t, k0.expAt⟩) ts hpw' hts_all
            hinv' k hk'
        have hsc := existing_step_count q M P B Pb rest ts lb k0
          ⟨k0.c + q, k0.b + q, k0.t, k0.expAt⟩ k e e0 he0 he0le hlbts hts0
          he0 rfl heq hauxC
        refine ⟨e, he, hcM, ?_, by rw [hst0]; exact hsc.2, ?_⟩
        · rw [runL_cons_snd, hstep, hst0]
          exact hsc.1
        · intro hB
          obtain ⟨hbB, heqB, hauxB⟩ := hburst hB
          have hPb0 : 0 < Pb := hPb hB
          have hk0t : k0.t ≤ ts := le_trans (hb0 hB).2 hlbts
          refine ⟨hbB, ?_, ?_⟩
          · rw [runL_cons_snd, hstep, hst0]
            show k.b = carryB (some k0) e k.t +
              ((if k.t ≤ ts ∧ (0 : Nat) = 0 then q else 0) +
                admittedFrom q k.t
                  (runL q M P B Pb
                    (some ⟨k0.c + q, k0.b + q, k0.t, k0.expAt⟩) rest).2)
            by_cases hcc : (⟨k0.c + q, k0.b + q, k0.t, k0.expAt⟩ :
                KeyData).expAt = some e ∧
                (⟨k0.c + q, k0.b + q, k0.t, k0.expAt⟩ : KeyData).t = k.t
            · obtain ⟨hcce, hcct⟩ := hcc
              have hcct' : k0.t = k.t := hcct
              have hc1 : carryB (some ⟨k0.c + q, k0.b + q, k0.t, k0.expAt⟩)
                  e k.t = k0.b + q := carryB_some_eq hcce hcct
              have hc0 : carryB (some k0) e k.t = k0.b :=
                carryB_some_eq hcce hcct
              rw [hc1, Nat.add_assoc] at heqB
              rw [hc0, if_pos ⟨by omega, rfl⟩]
              exact heqB
            · have htlt : ts < k.t := by
                rcases hauxB with ⟨k1', hk1', he1', ht1'⟩ | ⟨h1, h2, _⟩
                · exfalso
                  cases hk1'
                  exact hcc ⟨he1', ht1'⟩
                · by_cases hce : (⟨k0.c + q, k0.b + q, k0.t, k0.expAt⟩ :
                      KeyData).expAt = some e
                  · have hh : k0.t + Pb ≤ k.t :=
                      h1 ⟨k0.c + q, k0.b + q, k0.t, k0.expAt⟩ rfl hce
                    omega
                  · have he0ne : e0 ≠ e := by
                      intro hh
                      apply hce
                      show k0.expAt = some e
                      rw [he0, hh]
                    have hh : e0 ≤ k.t := h2 _ e0 rfl he0 he0ne
                    omega
              have hc1 : carryB (some ⟨k0.c + q, k0.b + q, k0.t, k0.expAt⟩)
                  e k.t = 0 := carryB_some_ne hcc
              have hc0 : carryB (some k0) e k.t = 0 :=
                @carryB_some_ne k0 e k.t (by
                  rintro ⟨h1', h2'⟩
                  exact hcc ⟨h1', h2'⟩)
              rw [hc1, Nat.zero_add] at heqB
              rw [hc0, if_neg (by rintro ⟨h1, _⟩; omega), Nat.zero_add,
                Nat.zero_add]
              exact heqB
          · rw [hst0]
            rcases hauxB with ⟨k1', hk1', he1', ht1'⟩ | ⟨h1, h2, _⟩
            · cases hk1'
              exact Or.inl ⟨k0, rfl, he1', ht1'⟩
            · refine Or.inr ⟨?_, ?_, ?_⟩
              · intro k0' h0' he0''
                cases h0'
                exact h1 ⟨k0.c + q, k0.b + q, k0.t, k0.expAt⟩ rfl he0''
              · intro k0' e0' h0' he0'' hne
                cases h0'
                exact h2 _ e0' rfl he0'' hne
              · intro h0
                cases h0
      · -- burst-free commit ⟨k0.c + q, k0.b, k0.t, k0.expAt⟩
        have hk' : (runL q M P B Pb
            (some ⟨k0.c + q, k0.b, k0.t, k0.expAt⟩) rest).1 = some k := by
          rw [runL_cons_fst, hstep] at hk
          exact hk
        have hinv' : KInv M B P ts
            (some ⟨k0.c + q, k0.b, k0.t, k0.expAt⟩) := by
          intro k' hk'
          cases hk'
          exact ⟨e0, he0, by omega, hcnt, fun hB => absurd hB hB0⟩
        obtain ⟨e, he, hcM, heq, hauxC, _⟩ :=
          ih (some ⟨k0.c + q, k0.b, k0.t, k0.expAt⟩) ts hpw' hts_all
            hinv' k hk'
        have hsc := existing_step_count q M P B Pb rest ts lb k0
          ⟨k0.c + q, k0.b, k0.t, k0.expAt⟩ k e e0 he0 he0le hlbts hts0
          he0 rfl heq hauxC
        refine ⟨e, he, hcM, ?_, by rw [hst0]; exact hsc.2,
          fun hB => absurd hB hB0⟩
        rw [runL_cons_snd, hstep, hst0]
        exact hsc.1

/-- C1 (amended): for fixed script parameters the bound holds per fixed
window, not per arbitrary sliding window.  Starting from an absent key,
after any time-ordered prefix of calls the live key's count equals the sum
of `q` over the calls admitted since its window opened (all of which lie
inside that single window `[e − P, e)`) and is at most `maxCount`; with
burst parameters (and `q ≤ maxBurst`, `0 < burstPeriodMs`, as validation
guarantees) the burst count likewise equals the admitted sum of the
current burst window and is at most `maxBurst`. -/
theorem claim1_fixed_window_bound (q M P B Pb : Nat)
    (times pre post : List Nat)
    (hP : 0 < P) (hqB : 0 < B → q ≤ B) (hPb : 0 < B → 0 < Pb)
    (hsplit : times = pre ++ post) (hs : times.Pairwise (· ≤ ·)) :
    ∀ k, (runL q M P B Pb none pre).1 = some k →
      ∃ e, k.expAt = some e ∧
        admittedFrom q (e - P) (runL q M P B Pb none pre).2 = k.c ∧
        k.c ≤ M ∧
        (0 < B →
          admittedFrom q k.t (runL q M P B Pb none pre).2 = k.b ∧
          k.b ≤ B) := by
  intro k hk
  have hpre : pre.Pairwise (· ≤ ·) := by
    subst hsplit
    exact (List.pairwise_append.mp hs).1
  obtain ⟨e, he, hcM, heq, _, hb⟩ :=
    runL_window_accounting q M P B Pb hP hqB hPb pre none 0 hpre
      (fun t _ => Nat.zero_le t) (fun k' hk' => by cases hk') k hk
  refine ⟨e, he, ?_, hcM, ?_⟩
  · rw [carryC_none, Nat.zero_add] at heq
    exact heq.symm
  · intro hB
    obtain ⟨hbB, heqB, _⟩ := hb hB
    rw [carryB_none, Nat.zero_add] at heqB
    exact ⟨heqB.symm, hbB⟩

theorem claim1_fixed_window_bound_witness :
    ∃ e, (⟨2, 2, 0, some 1000⟩ : KeyData).expAt = some e ∧
      admittedFrom 1 (e - 1000) (runL 1 2 1000 3 300 none [0, 100]).2 =
        (⟨2, 2, 0, some 1000⟩ : KeyData).c ∧
      (⟨2, 2, 0, some 1000⟩ : KeyData).c ≤ 2 ∧
      (0 < 3 →
        admittedFrom 1 (⟨2, 2, 0, some 1000⟩ : KeyData).t
          (runL 1 2 1000 3 300 none [0, 100]).2 =
          (⟨2, 2, 0, some 1000⟩ : KeyData).b ∧
        (⟨2, 2, 0, some 1000⟩ : KeyData).b ≤ 3) :=
  claim1_fixed_window_bound 1 2 1000 3 300 [0, 100] [0, 100] []
    (by decide) (fun _ => by decide) (fun _ => by decide) rfl (by decide)
    ⟨2, 2, 0, some 1000⟩ (by decide)

/-! ## The dynamic-list scripts (src/redlimit_lua.rs)

Sorted sets and hashes are association lists (member ↦ score / field ↦
value); `zaddOne`/`hsetOne` are the single-entry `ZADD`/`HSET` update. -/

def zaddOne (zs : List (String × Nat)) (m : String) (sc : Nat) :
    List (String × Nat) :=
  match zs with
  | [] => [(m, sc)]
  | p :: rest => if p.1 = m then (m, sc) :: rest else p :: zaddOne rest m sc

def hsetOne (hs : List (String × String)) (f v : String) :
    List (String × String) :=
  match hs with
  | [] => [(f, v)]
  | p :: rest => if p.1 = f then (f, v) :: rest else p :: hsetOne rest f v

/-- The `cursor_members` loop of `redlist_add`: the args-array index `i`
runs 1, 3, 5, … and the member at index `i` receives cursor score
`ts + i`. -/
def cursorEntries (ts i : Nat) : List (String × Nat) → List (Nat × String)
  | [] => []
  | p :: rest => (ts + i, p.1) :: cursorEntries ts (i + 2) rest

/-- The `ttl_members` loop of `redlist_add`: the member at args index `i`
receives ttl score `ts + ttlMs` where `ttlMs` is the arg at `i + 1`. -/
def ttlEntries (ts : Nat) : List (String × Nat) → List (Nat × String)
  | [] => []
  | p :: rest => (ts + p.2, p.1) :: ttlEntries ts rest

/-- `ZADD` of a `(score, member)` batch, returning the updated set and the
count of newly added members (the Redis `ZADD` return value). -/
def zaddC (zs : List (String × Nat)) :
    List (Nat × String) → List (String × Nat) × Nat
  | [] => (zs, 0)
  | e :: rest =>
    let present := zs.any (fun p => p.1 = e.2)
    let r := zaddC (zaddOne zs e.2 e.1) rest
    (r.1, (if present then 0 else 1) + r.2)

/-- The two sorted sets `NS:LC` (cursor-indexed) and `NS:LT`
(ttl-indexed) backing the redlist. -/
structure RedlistStore where
  cursorZ : List (String × Nat)
  ttlZ : List (String × Nat)
deriving DecidableEq, Repr

/-- The Lua `redlist_add(keys, args)` executed at instant `ts`: sweep
members with ttl score `< ts` out of both sorted sets (`ZREM`), then, if
args are non-empty, `ZADD` the ttl batch and the cursor batch. -/
def redlist_add_script (ts : Nat) (args : List (String × Nat))
    (st : RedlistStore) : RedlistStore × Nat :=
  let stale := (st.ttlZ.filter (fun p => p.2 < ts)).map (fun p => p.1)
  let ttl1 := st.ttlZ.filter (fun p => ¬ p.2 < ts)
  let cur1 := st.cursorZ.filter (fun p => ¬ p.1 ∈ stale)
  if args = [] then (⟨cur1, ttl1⟩, 0)
  else
    let te := zaddC ttl1 (ttlEntries ts args)
    let ce := zaddC cur1 (cursorEntries ts 1 args)
    (⟨ce.1, te.1⟩, ce.2)

/-- The ttl-indexed sorted set `NS:RT` and the data hash `NS:RD` backing
the dynamic redrules. -/
structure RedruleStore where
  ttlZ : List (String × Nat)
  dataH : List (String × String)
deriving DecidableEq, Repr

/-- `cjson.encode({scope, path, quantity, expiry})` (embedded quote
escaping is not modelled). -/
def encodeRedrule (scope path : String) (quantity expiry : Nat) : String :=
  "[\"" ++ scope ++ "\",\"" ++ path ++ "\"," ++ toString quantity ++ ","
    ++ toString expiry ++ "]"

/-- The Lua `redrules_add(keys, args)` executed at instant `ts`.  The
sweep issues `HDEL` on the ttl-indexed *sorted set* and `ZREM` on the
data *hash* (the commands are interchanged in the source), so whenever
the sweep finds a stale member Redis aborts the script with a WRONGTYPE
error and nothing is removed; with no stale member the sweep is a no-op
and the optional entry is written (`ZADD` + `HSET` of the JSON tuple). -/
def redrules_add_script (ts : Nat)
    (args : Option (String × String × Nat × Nat)) (st : RedruleStore) :
    Except String (RedruleStore × Nat) :=
  let stale := (st.ttlZ.filter (fun p => p.2 < ts)).map (fun p => p.1)
  if stale ≠ [] then
    .error "WRONGTYPE Operation against a key holding the wrong kind of value"
  else
    match args with
    | none => .ok (st, 0)
    | some (scope, path, quantity, ttlMs) =>
      let id := scope ++ path
      let ttl := ts + ttlMs
      .ok (⟨zaddOne st.ttlZ id ttl,
            hsetOne st.dataH id (encodeRedrule scope path quantity ttl)⟩,
           if st.dataH.any (fun p => p.1 = id) then 0 else 1)

/-- C7 (code evaluated at the failing input): the claim says every
`redrules_add` call first removes all stale entries from both the ttl
sorted set and the data hash, and that an empty-args call sweeps and
returns 0.  The code's sweep commands are interchanged (`HDEL` on the
sorted set, `ZREM` on the hash), so as soon as a stale entry exists even
the empty-args call aborts with WRONGTYPE instead of sweeping; only with
no stale entry does the empty-args call return 0. -/
theorem claim7_sweep_wrongtype :
    redrules_add_script 200 none ⟨[("corep1", 100)], [("corep1", "x")]⟩ =
      .error
        "WRONGTYPE Operation against a key holding the wrong kind of value" ∧
    redrules_add_script 200 none ⟨[], []⟩ = .ok (⟨[], []⟩, 0) := by
  constructor
  · rfl
  · rfl

/-- C8 counterexample: in a `redlist_add` call at `ts = 1000` with two
members, the 2nd member receives cursor score 1003 = ts + 3, not
`ts + k = 1002` as the claim's "k-th member gets `ts + k`" states (the
loop index steps through the flat args array, so the k-th member sits at
index `2k − 1`). -/
theorem claim8_cursor_score_counterexample :
    (redlist_add_script 1000 [("m1", 50), ("m2", 60)] ⟨[], []⟩).1.cursorZ =
      [("m1", 1001), ("m2", 1003)] ∧
    ¬ (1003 : Nat) = 1000 + 2 := by decide

lemma cursorEntries_getElem (ts : Nat) :
    ∀ (args : List (String × Nat)) (i kk : Nat),
      (cursorEntries ts i args)[kk]? =
        (args[kk]?).map (fun p => (ts + (i + 2 * kk), p.1)) := by
  intro args
  induction args with
  | nil =>
    intro i kk
    simp [cursorEntries]
  | cons p rest ih =>
    intro i kk
    cases kk with
    | zero => simp [cursorEntries]
    | succ kk' =>
      simp only [cursorEntries, List.getElem?_cons_succ]
      rw [ih (i + 2) kk']
      have harith : i + 2 + 2 * kk' = i + 2 * (kk' + 1) := by ring
      rw [harith]

lemma ttlEntries_getElem (ts : Nat) :
    ∀ (args : List (String × Nat)) (kk : Nat),
      (ttlEntries ts args)[kk]? =
        (args[kk]?).map (fun p => (ts + p.2, p.1)) := by
  intro args
  induction args with
  | nil =>
    intro kk
    simp [ttlEntries]
  | cons p rest ih =>
    intro kk
    cases kk with
    | zero => simp [ttlEntries]
    | succ kk' =>
      simp only [ttlEntries, List.getElem?_cons_succ]
      rw [ih kk']

lemma cursorEntries_score_ge (ts : Nat) :
    ∀ (args : List (String × Nat)) (i : Nat) (b : Nat × String),
      b ∈ cursorEntries ts i args → ts + i ≤ b.1 := by
  intro args
  induction args with
  | nil =>
    intro i b hb
    simp [cursorEntries] at hb
  | cons p rest ih =>
    intro i b hb
    simp only [cursorEntries, List.mem_cons] at hb
    rcases hb with hb | hb
    · rw [hb]
    · have := ih (i + 2) b hb
      omega

lemma cursorEntries_pairwise (ts : Nat) :
    ∀ (args : List (String × Nat)) (i : Nat),
      List.Pairwise (fun a b => a.1 < b.1) (cursorEntries ts i args) := by
  intro args
  induction args with
  | nil =>
    intro i
    simp [cursorEntries]
  | cons p rest ih =>
    intro i
    simp only [cursorEntries, List.pairwise_cons]
    refine ⟨?_, ih (i + 2)⟩
    intro b hb
    have := cursorEntries_score_ge ts rest (i + 2) b hb
    show ts + i < b.1
    omega

/-- C8 (amended): in `redlist_add` at instant `ts`, the k-th member
(0-based `kk`, i.e. 1-based position `kk + 1`) is inserted into the
cursor sorted set with cursor score `ts + (2·kk + 1)` — the member's
1-based index in the flat args array, `ts + (2(kk+1) − 1)`, not
`ts + (kk+1)` — and into the ttl sorted set with score `ts + ttlMs`; the
cursor scores of one call are strictly increasing in position order. -/
theorem claim8_insert_scores (ts : Nat) (args : List (String × Nat))
    (kk : Nat) (m : String) (ttl : Nat) (h : args[kk]? = some (m, ttl)) :
    (cursorEntries ts 1 args)[kk]? = some (ts + (2 * kk + 1), m) ∧
    (ttlEntries ts args)[kk]? = some (ts + ttl, m) ∧
    List.Pairwise (fun a b => a.1 < b.1) (cursorEntries ts 1 args) := by
  refine ⟨?_, ?_, cursorEntries_pairwise ts args 1⟩
  · rw [cursorEntries_getElem ts args 1 kk, h]
    have harith : 1 + 2 * kk = 2 * kk + 1 := by ring
    rw [Option.map_some', harith]
  · rw [ttlEntries_getElem ts args kk, h]
    rfl

theorem claim8_insert_scores_witness :
    (cursorEntries 1000 1 [("m1", 50), ("m2", 60)])[1]? =
      some (1000 + (2 * 1 + 1), "m2") ∧
    (ttlEntries 1000 [("m1", 50), ("m2", 60)])[1]? =
      some (1000 + 60, "m2") ∧
    List.Pairwise (fun a b => a.1 < b.1)
      (cursorEntries 1000 1 [("m1", 50), ("m2", 60)]) :=
  claim8_insert_scores 1000 [("m1", 50), ("m2", 60)] 1 "m2" 60 (by decide)
